import Mathlib

/-!
Formal model of the text-analysis core of the Fit-For-Role résumé/job matcher
(`src/app.py`): text normalization (`clean_text`), keyword extraction
(`get_keywords`, the regex `\b[a-z]{3,}\b` over the lowercased text), the
TF-IDF cosine-similarity scorer (`calculate_similarity`), the keyword-gap
analyzer (`analyze_missing`) and the rule-based suggestion generator
(`generate_tailored_suggestions`).

Strings are modelled over their character lists.  The character classes are
the ASCII fragments of Python's `\s`, `\w`, `[a-z]` and `str.lower`; the
development therefore models the program's behaviour on ASCII text, which is
the fragment the specification describes ("lowercase alphabetic ASCII").
Floating-point arithmetic of the scorer is modelled over the reals.
-/

/-- ASCII fragment of Python's whitespace class `\s` (also the characters
stripped by `str.strip`): space, tab, newline, carriage return, form feed and
vertical tab. -/
def isSpaceChar (c : Char) : Bool :=
  c = ' ' || c = '\t' || c = '\n' || c = '\x0d' || c = '\x0c' || c = '\x0b'

/-- The character class `[a-z]` of the keyword regex. -/
def isAlphaLower (c : Char) : Bool :=
  'a' ≤ c && c ≤ 'z'

/-- ASCII fragment of Python's word-character class `\w`: letters, digits and
the underscore.  The regex metacharacter `\b` marks a transition between a
word character and a non-word character (or the start/end of the text). -/
def isWordChar (c : Char) : Bool :=
  ('a' ≤ c && c ≤ 'z') || ('A' ≤ c && c ≤ 'Z') || ('0' ≤ c && c ≤ '9') || c = '_'

/-- ASCII case folding, as performed by Python's `str.lower` on ASCII input:
the 26 uppercase letters map to their lowercase forms, everything else is
unchanged. -/
def lowerChar : Char → Char
  | 'A' => 'a' | 'B' => 'b' | 'C' => 'c' | 'D' => 'd' | 'E' => 'e' | 'F' => 'f'
  | 'G' => 'g' | 'H' => 'h' | 'I' => 'i' | 'J' => 'j' | 'K' => 'k' | 'L' => 'l'
  | 'M' => 'm' | 'N' => 'n' | 'O' => 'o' | 'P' => 'p' | 'Q' => 'q' | 'R' => 'r'
  | 'S' => 's' | 'T' => 't' | 'U' => 'u' | 'V' => 'v' | 'W' => 'w' | 'X' => 'x'
  | 'Y' => 'y' | 'Z' => 'z'
  | c => c

theorem char_eq_of_toNat (c d : Char) (h : c.val.toNat = d.val.toNat) : c = d :=
  Char.ext (UInt32.ext h)

theorem not_upper_of_ne (c : Char) (h1 : c = 'A' → False) (h2 : c = 'B' → False)
    (h3 : c = 'C' → False) (h4 : c = 'D' → False) (h5 : c = 'E' → False)
    (h6 : c = 'F' → False) (h7 : c = 'G' → False) (h8 : c = 'H' → False)
    (h9 : c = 'I' → False) (h10 : c = 'J' → False) (h11 : c = 'K' → False)
    (h12 : c = 'L' → False) (h13 : c = 'M' → False) (h14 : c = 'N' → False)
    (h15 : c = 'O' → False) (h16 : c = 'P' → False) (h17 : c = 'Q' → False)
    (h18 : c = 'R' → False) (h19 : c = 'S' → False) (h20 : c = 'T' → False)
    (h21 : c = 'U' → False) (h22 : c = 'V' → False) (h23 : c = 'W' → False)
    (h24 : c = 'X' → False) (h25 : c = 'Y' → False) (h26 : c = 'Z' → False) :
    ('A' ≤ c && c ≤ 'Z') = false := by
  by_contra hcon
  rw [Bool.not_eq_false, Bool.and_eq_true, decide_eq_true_eq, decide_eq_true_eq] at hcon
  obtain ⟨ha, hb⟩ := hcon
  have ha2 : 65 ≤ c.val.toNat := ha
  have hb2 : c.val.toNat ≤ 90 := hb
  have k1 : c.val.toNat ≠ 65 := fun hh => h1 (char_eq_of_toNat c 'A' hh)
  have k2 : c.val.toNat ≠ 66 := fun hh => h2 (char_eq_of_toNat c 'B' hh)
  have k3 : c.val.toNat ≠ 67 := fun hh => h3 (char_eq_of_toNat c 'C' hh)
  have k4 : c.val.toNat ≠ 68 := fun hh => h4 (char_eq_of_toNat c 'D' hh)
  have k5 : c.val.toNat ≠ 69 := fun hh => h5 (char_eq_of_toNat c 'E' hh)
  have k6 : c.val.toNat ≠ 70 := fun hh => h6 (char_eq_of_toNat c 'F' hh)
  have k7 : c.val.toNat ≠ 71 := fun hh => h7 (char_eq_of_toNat c 'G' hh)
  have k8 : c.val.toNat ≠ 72 := fun hh => h8 (char_eq_of_toNat c 'H' hh)
  have k9 : c.val.toNat ≠ 73 := fun hh => h9 (char_eq_of_toNat c 'I' hh)
  have k10 : c.val.toNat ≠ 74 := fun hh => h10 (char_eq_of_toNat c 'J' hh)
  have k11 : c.val.toNat ≠ 75 := fun hh => h11 (char_eq_of_toNat c 'K' hh)
  have k12 : c.val.toNat ≠ 76 := fun hh => h12 (char_eq_of_toNat c 'L' hh)
  have k13 : c.val.toNat ≠ 77 := fun hh => h13 (char_eq_of_toNat c 'M' hh)
  have k14 : c.val.toNat ≠ 78 := fun hh => h14 (char_eq_of_toNat c 'N' hh)
  have k15 : c.val.toNat ≠ 79 := fun hh => h15 (char_eq_of_toNat c 'O' hh)
  have k16 : c.val.toNat ≠ 80 := fun hh => h16 (char_eq_of_toNat c 'P' hh)
  have k17 : c.val.toNat ≠ 81 := fun hh => h17 (char_eq_of_toNat c 'Q' hh)
  have k18 : c.val.toNat ≠ 82 := fun hh => h18 (char_eq_of_toNat c 'R' hh)
  have k19 : c.val.toNat ≠ 83 := fun hh => h19 (char_eq_of_toNat c 'S' hh)
  have k20 : c.val.toNat ≠ 84 := fun hh => h20 (char_eq_of_toNat c 'T' hh)
  have k21 : c.val.toNat ≠ 85 := fun hh => h21 (char_eq_of_toNat c 'U' hh)
  have k22 : c.val.toNat ≠ 86 := fun hh => h22 (char_eq_of_toNat c 'V' hh)
  have k23 : c.val.toNat ≠ 87 := fun hh => h23 (char_eq_of_toNat c 'W' hh)
  have k24 : c.val.toNat ≠ 88 := fun hh => h24 (char_eq_of_toNat c 'X' hh)
  have k25 : c.val.toNat ≠ 89 := fun hh => h25 (char_eq_of_toNat c 'Y' hh)
  have k26 : c.val.toNat ≠ 90 := fun hh => h26 (char_eq_of_toNat c 'Z' hh)
  omega

theorem lowerChar_fix (c : Char) (h : ('A' ≤ c && c ≤ 'Z') = false) : lowerChar c = c := by
  unfold lowerChar
  split
  all_goals first
    | rfl
    | (exfalso; revert h; decide)

theorem lowerChar_not_upper (c : Char) : ('A' ≤ lowerChar c && lowerChar c ≤ 'Z') = false := by
  unfold lowerChar
  split
  all_goals first
    | rfl
    | (rename_i h1 h2 h3 h4 h5 h6 h7 h8 h9 h10 h11 h12 h13 h14 h15 h16 h17 h18 h19 h20 h21 h22
         h23 h24 h25 h26
       exact not_upper_of_ne c h1 h2 h3 h4 h5 h6 h7 h8 h9 h10 h11 h12 h13 h14 h15 h16 h17 h18
         h19 h20 h21 h22 h23 h24 h25 h26)

theorem lowerChar_idem (c : Char) : lowerChar (lowerChar c) = lowerChar c :=
  lowerChar_fix (lowerChar c) (lowerChar_not_upper c)

theorem isSpaceChar_lowerChar (c : Char) : isSpaceChar (lowerChar c) = isSpaceChar c := by
  unfold lowerChar
  split <;> rfl

/-- Replacement of every maximal run of whitespace characters by a single
space: the list-level model of `re.sub(r'\s+', ' ', text)`.  A whitespace
character is kept as a single `' '` exactly when the following character is
not itself whitespace (or the text ends). -/
def collapseWs : List Char → List Char
  | [] => []
  | [c] => if isSpaceChar c then [' '] else [c]
  | c :: d :: rest =>
      if isSpaceChar c then
        (if isSpaceChar d then collapseWs (d :: rest)
         else ' ' :: collapseWs (d :: rest))
      else c :: collapseWs (d :: rest)

/-- Model of `clean_text`: `re.sub(r'\s+', ' ', text).lower()` — collapse the
whitespace runs, then lowercase. -/
def clean_text (s : String) : String :=
  String.mk ((collapseWs s.data).map lowerChar)

theorem collapseWs_one (c : Char) :
    collapseWs [c] = if isSpaceChar c then [' '] else [c] := rfl

theorem collapseWs_sp_sp (c d : Char) (rest : List Char)
    (hc : isSpaceChar c = true) (hd : isSpaceChar d = true) :
    collapseWs (c :: d :: rest) = collapseWs (d :: rest) := by
  simp [collapseWs, hc, hd]

theorem collapseWs_sp_ns (c d : Char) (rest : List Char)
    (hc : isSpaceChar c = true) (hd : isSpaceChar d = false) :
    collapseWs (c :: d :: rest) = ' ' :: collapseWs (d :: rest) := by
  simp [collapseWs, hc, hd]

theorem collapseWs_ns (c d : Char) (rest : List Char) (hc : isSpaceChar c = false) :
    collapseWs (c :: d :: rest) = c :: collapseWs (d :: rest) := by
  simp [collapseWs, hc]

theorem collapseWs_ne_nil : ∀ (c : Char) (l : List Char), collapseWs (c :: l) ≠ []
  | c, [] => by
    rw [collapseWs_one]
    split <;> simp
  | c, d :: rest => by
    by_cases hc : isSpaceChar c = true
    · by_cases hd : isSpaceChar d = true
      · rw [collapseWs_sp_sp c d rest hc hd]
        exact collapseWs_ne_nil d rest
      · rw [collapseWs_sp_ns c d rest hc (Bool.not_eq_true _ ▸ hd)]
        simp
    · rw [collapseWs_ns c d rest (Bool.not_eq_true _ ▸ hc)]
      simp

theorem collapseWs_head_not_space (c : Char) (l : List Char) (h : isSpaceChar c = false) :
    ∃ t, collapseWs (c :: l) = c :: t := by
  match l with
  | [] => exact ⟨[], by rw [collapseWs_one]; simp [h]⟩
  | d :: rest => exact ⟨collapseWs (d :: rest), collapseWs_ns c d rest h⟩

/-- `collapseWs` is idempotent. -/
theorem collapseWs_idem : ∀ (l : List Char), collapseWs (collapseWs l) = collapseWs l
  | [] => rfl
  | [c] => by
    by_cases h : isSpaceChar c = true
    · rw [collapseWs_one, if_pos h, collapseWs_one]
      rfl
    · rw [collapseWs_one, if_neg (by simp [h]), collapseWs_one, if_neg (by simp [h])]
  | c :: d :: rest => by
    by_cases hc : isSpaceChar c = true
    · by_cases hd : isSpaceChar d = true
      · rw [collapseWs_sp_sp c d rest hc hd]
        exact collapseWs_idem (d :: rest)
      · replace hd : isSpaceChar d = false := Bool.not_eq_true _ ▸ hd
        rw [collapseWs_sp_ns c d rest hc hd]
        obtain ⟨t, ht⟩ := collapseWs_head_not_space d rest hd
        rw [ht, collapseWs_sp_ns ' ' d t rfl hd, ← ht, collapseWs_idem (d :: rest), ht]
    · replace hc : isSpaceChar c = false := Bool.not_eq_true _ ▸ hc
      rw [collapseWs_ns c d rest hc]
      obtain ⟨e, ts, hX⟩ := List.exists_cons_of_ne_nil (collapseWs_ne_nil d rest)
      rw [hX, collapseWs_ns c e ts hc, ← hX, collapseWs_idem (d :: rest)]

/-- Case folding commutes with whitespace collapsing (folding never changes
the whitespace status of a character). -/
theorem collapseWs_map_lower : ∀ (l : List Char),
    collapseWs (l.map lowerChar) = (collapseWs l).map lowerChar
  | [] => rfl
  | [c] => by
    simp only [List.map_cons, List.map_nil, collapseWs_one, isSpaceChar_lowerChar]
    by_cases h : isSpaceChar c = true
    · rw [if_pos h, if_pos h]
      rfl
    · rw [if_neg h, if_neg h]
      rfl
  | c :: d :: rest => by
    have hc2 := isSpaceChar_lowerChar c
    have hd2 := isSpaceChar_lowerChar d
    by_cases hc : isSpaceChar c = true
    · by_cases hd : isSpaceChar d = true
      · rw [List.map_cons, List.map_cons,
          collapseWs_sp_sp _ _ _ (hc2.trans hc) (hd2.trans hd)]
        simp only [← List.map_cons]
        rw [collapseWs_sp_sp c d rest hc hd]
        exact collapseWs_map_lower (d :: rest)
      · replace hd : isSpaceChar d = false := Bool.not_eq_true _ ▸ hd
        rw [List.map_cons, List.map_cons,
          collapseWs_sp_ns _ _ _ (hc2.trans hc) (hd2.trans hd)]
        simp only [← List.map_cons]
        rw [collapseWs_map_lower (d :: rest), collapseWs_sp_ns c d rest hc hd, List.map_cons]
        rfl
    · replace hc : isSpaceChar c = false := Bool.not_eq_true _ ▸ hc
      rw [List.map_cons, List.map_cons, collapseWs_ns _ _ _ (hc2.trans hc)]
      simp only [← List.map_cons]
      rw [collapseWs_map_lower (d :: rest), collapseWs_ns c d rest hc, List.map_cons]

/-- Maximal runs of characters satisfying `p`, with explicit fuel (at least
one character is consumed per step, so `fuel = l.length` always suffices). -/
def runsF (p : Char → Bool) : Nat → List Char → List (List Char)
  | 0, _ => []
  | _ + 1, [] => []
  | fuel + 1, c :: cs =>
      if p c then ((c :: cs).takeWhile p) :: runsF p fuel ((c :: cs).dropWhile p)
      else runsF p fuel cs

/-- The decomposition of a text into its maximal runs of characters of the
class `p`, in left-to-right order. -/
def runsW (p : Char → Bool) (l : List Char) : List (List Char) :=
  runsF p l.length l

theorem runsF_succ_cons (p : Char → Bool) (f : Nat) (c : Char) (cs : List Char) :
    runsF p (f + 1) (c :: cs) =
      if p c then ((c :: cs).takeWhile p) :: runsF p f ((c :: cs).dropWhile p)
      else runsF p f cs := rfl

theorem runsW_cons (p : Char → Bool) (c : Char) (cs : List Char) :
    runsW p (c :: cs) =
      if p c then ((c :: cs).takeWhile p) :: runsF p cs.length ((c :: cs).dropWhile p)
      else runsF p cs.length cs := rfl

theorem length_dropWhile_le (p : Char → Bool) (l : List Char) :
    (l.dropWhile p).length ≤ l.length :=
  (List.dropWhile_sublist p).length_le

theorem runsF_eq (p : Char → Bool) : ∀ (fuel : Nat) (l : List Char), l.length ≤ fuel →
    runsF p fuel l = runsW p l := by
  intro fuel
  induction fuel using Nat.strong_induction_on with
  | _ fuel IH =>
    intro l hl
    cases fuel with
    | zero =>
      cases l with
      | nil => rfl
      | cons c cs => simp at hl
    | succ f =>
      cases l with
      | nil => rfl
      | cons c cs =>
        have hcs : cs.length ≤ f := by
          simp only [List.length_cons] at hl
          omega
        by_cases hp : p c = true
        · rw [runsF_succ_cons, runsW_cons, if_pos hp, if_pos hp]
          have h1 : ((c :: cs).dropWhile p).length ≤ cs.length := by
            rw [List.dropWhile_cons, if_pos hp]
            exact length_dropWhile_le p cs
          rw [IH f (Nat.lt_succ_self f) _ (le_trans h1 hcs),
            IH cs.length (Nat.lt_succ_of_le hcs) _ h1]
        · replace hp : p c = false := Bool.not_eq_true _ ▸ hp
          rw [runsF_succ_cons, runsW_cons, if_neg (by simp [hp]), if_neg (by simp [hp])]
          rw [IH f (Nat.lt_succ_self f) _ hcs, IH cs.length (Nat.lt_succ_of_le hcs) _ le_rfl]

theorem runsW_nil (p : Char → Bool) : runsW p [] = [] := rfl

theorem runsW_cons_neg (p : Char → Bool) (c : Char) (cs : List Char) (hp : p c = false) :
    runsW p (c :: cs) = runsW p cs := by
  rw [runsW_cons, if_neg (by simp [hp]), runsF_eq p cs.length cs le_rfl]

theorem runsW_cons_pos (p : Char → Bool) (c : Char) (cs : List Char) (hp : p c = true) :
    runsW p (c :: cs) = ((c :: cs).takeWhile p) :: runsW p ((c :: cs).dropWhile p) := by
  rw [runsW_cons, if_pos hp]
  have h1 : ((c :: cs).dropWhile p).length ≤ cs.length := by
    rw [List.dropWhile_cons, if_pos hp]
    exact length_dropWhile_le p cs
  rw [runsF_eq p cs.length _ h1]

theorem takeWhile_append_of_all (p : Char → Bool) :
    ∀ (xs ys : List Char), (∀ x ∈ xs, p x = true) →
      (xs ++ ys).takeWhile p = xs ++ ys.takeWhile p
  | [], ys, _ => rfl
  | x :: xs, ys, h => by
    rw [List.cons_append, List.takeWhile_cons, if_pos (h x (List.mem_cons_self x xs)),
      takeWhile_append_of_all p xs ys (fun a ha => h a (List.mem_cons_of_mem x ha)),
      List.cons_append]

theorem dropWhile_append_of_all (p : Char → Bool) :
    ∀ (xs ys : List Char), (∀ x ∈ xs, p x = true) →
      (xs ++ ys).dropWhile p = ys.dropWhile p
  | [], ys, _ => rfl
  | x :: xs, ys, h => by
    rw [List.cons_append, List.dropWhile_cons, if_pos (h x (List.mem_cons_self x xs)),
      dropWhile_append_of_all p xs ys (fun a ha => h a (List.mem_cons_of_mem x ha))]

theorem drop_takeWhile_head (p : Char → Bool) :
    ∀ (L : Nat) (l : List Char), L < (l.takeWhile p).length →
      ∃ c t, l.drop L = c :: t ∧ p c = true
  | _, [], h => by simp at h
  | L, c :: cs, h => by
    by_cases hp : p c = true
    · cases L with
      | zero => exact ⟨c, cs, rfl, hp⟩
      | succ L =>
        rw [List.takeWhile_cons, if_pos hp, List.length_cons] at h
        exact drop_takeWhile_head p L cs (Nat.lt_of_succ_lt_succ h)
    · rw [List.takeWhile_cons, if_neg hp] at h
      simp at h

/-- Is there a `\b` word boundary after position `k` of `l`: the text ends
there, or the character at position `k` is a non-word character. -/
def wordBoundaryAt (l : List Char) (k : Nat) : Bool :=
  match l.drop k with
  | [] => true
  | c :: _ => !isWordChar c

/-- Greedy search of the regex engine for the length of a `[a-z]{3,}\b`
match, at most `n` (the length of the alphabetic run at the match start):
lengths are tried from `n` downwards — the regex backtracks — and the first
length whose end lies on a word boundary is taken; lengths below 3 fail. -/
def greedy (l : List Char) : Nat → Option Nat
  | 0 => none
  | L + 1 =>
      if L + 1 < 3 then none
      else if wordBoundaryAt l (L + 1) then some (L + 1)
      else greedy l L

/-- Attempt of `re.findall(r'\b[a-z]{3,}\b', ·)` to match at the head of `l`
(the boundary before the match is checked by the caller): greedily match
`[a-z]{3,}`, backtracking until the match end lies on a word boundary.
Returns the length of the match. -/
def tryMatch (l : List Char) : Option Nat :=
  greedy l (l.takeWhile isAlphaLower).length

theorem greedy_some (l : List Char) :
    ∀ (n L : Nat), greedy l n = some L → 3 ≤ L ∧ L ≤ n ∧ wordBoundaryAt l L = true
  | 0, L, h => Option.noConfusion h
  | n + 1, L, h => by
    rw [greedy] at h
    by_cases h3 : n + 1 < 3
    · rw [if_pos h3] at h
      exact Option.noConfusion h
    · rw [if_neg h3] at h
      by_cases hb : wordBoundaryAt l (n + 1) = true
      · rw [if_pos hb] at h
        obtain rfl : n + 1 = L := Option.some.inj h
        exact ⟨by omega, le_rfl, hb⟩
      · rw [if_neg hb] at h
        obtain ⟨hL1, hL2, hL3⟩ := greedy_some l n L h
        exact ⟨hL1, by omega, hL3⟩

theorem greedy_of_boundary (l : List Char) (n : Nat) (h3 : 3 ≤ n)
    (hb : wordBoundaryAt l n = true) : greedy l n = some n := by
  match n, h3 with
  | m + 3, _ =>
    rw [show m + 3 = (m + 2) + 1 from rfl, greedy, if_neg (by omega), if_pos]
    exact hb

theorem greedy_none (l : List Char) :
    ∀ (n : Nat), (∀ L, 3 ≤ L → L ≤ n → wordBoundaryAt l L = false) → greedy l n = none
  | 0, _ => rfl
  | n + 1, h => by
    rw [greedy]
    by_cases h3 : n + 1 < 3
    · rw [if_pos h3]
    · rw [if_neg h3, if_neg (by simp [h (n + 1) (by omega) le_rfl]),
        greedy_none l n (fun L hL1 hL2 => h L hL1 (by omega))]

/-- One pass of `re.findall` over the text: `prevW` records whether the
character just before the current position is a word character (this decides
the leading `\b`).  On a match the scan resumes right after the match (the
last matched character is a lowercase letter, hence a word character);
otherwise it advances one character.  Fuel decreases by one per step, so
`l.length` always suffices. -/
def reScanF : Nat → Bool → List Char → List (List Char)
  | 0, _, _ => []
  | _ + 1, _, [] => []
  | fuel + 1, prevW, c :: cs =>
      if !prevW && isAlphaLower c then
        match tryMatch (c :: cs) with
        | some L => (c :: cs).take L :: reScanF fuel true ((c :: cs).drop L)
        | none => reScanF fuel (isWordChar c) cs
      else reScanF fuel (isWordChar c) cs

/-- The full scan of `re.findall(r'\b[a-z]{3,}\b', ·)`, starting at the text
head (no preceding character, so no preceding word character). -/
def reScanW (b : Bool) (l : List Char) : List (List Char) :=
  reScanF l.length b l

/-- Model of `get_keywords`: `re.findall(r'\b[a-z]{3,}\b', text.lower())`,
as the list of matched substrings in order. -/
def get_keywords (s : String) : List String :=
  (reScanW false (s.data.map lowerChar)).map (fun r => String.mk r)

theorem reScanF_succ_cons (f : Nat) (b : Bool) (c : Char) (cs : List Char) :
    reScanF (f + 1) b (c :: cs) =
      if !b && isAlphaLower c then
        match tryMatch (c :: cs) with
        | some L => (c :: cs).take L :: reScanF f true ((c :: cs).drop L)
        | none => reScanF f (isWordChar c) cs
      else reScanF f (isWordChar c) cs := rfl

theorem reScanF_eq : ∀ (fuel : Nat) (b : Bool) (l : List Char), l.length ≤ fuel →
    reScanF fuel b l = reScanW b l := by
  intro fuel
  induction fuel using Nat.strong_induction_on with
  | _ fuel IH =>
    intro b l hl
    cases fuel with
    | zero =>
      cases l with
      | nil => rfl
      | cons c cs => simp at hl
    | succ f =>
      cases l with
      | nil => rfl
      | cons c cs =>
        have hcs : cs.length ≤ f := by
          simp only [List.length_cons] at hl
          omega
        rw [reScanF_succ_cons]
        rw [show reScanW b (c :: cs) = reScanF (cs.length + 1) b (c :: cs) from rfl,
          reScanF_succ_cons]
        by_cases hcond : (!b && isAlphaLower c) = true
        · rw [if_pos hcond, if_pos hcond]
          match hm : tryMatch (c :: cs) with
          | some L =>
            obtain ⟨hL3, _, _⟩ := greedy_some _ _ _ hm
            have hdrop : ((c :: cs).drop L).length ≤ cs.length := by
              rw [List.length_drop]
              simp only [List.length_cons]
              omega
            dsimp only
            rw [IH f (Nat.lt_succ_self f) true _ (le_trans hdrop hcs),
              IH cs.length (Nat.lt_succ_of_le hcs) true _ hdrop]
          | none =>
            dsimp only
            rw [IH f (Nat.lt_succ_self f) (isWordChar c) cs hcs,
              IH cs.length (Nat.lt_succ_of_le hcs) (isWordChar c) cs le_rfl]
        · rw [if_neg hcond, if_neg hcond,
            IH f (Nat.lt_succ_self f) (isWordChar c) cs hcs,
            IH cs.length (Nat.lt_succ_of_le hcs) (isWordChar c) cs le_rfl]

theorem reScanW_nil (b : Bool) : reScanW b [] = [] := rfl

theorem reScanW_skip (b : Bool) (c : Char) (cs : List Char)
    (h : (!b && isAlphaLower c) = false) :
    reScanW b (c :: cs) = reScanW (isWordChar c) cs := by
  rw [show reScanW b (c :: cs) = reScanF (cs.length + 1) b (c :: cs) from rfl,
    reScanF_succ_cons, if_neg (by simp [h]), reScanF_eq cs.length (isWordChar c) cs le_rfl]

theorem reScanW_none (b : Bool) (c : Char) (cs : List Char)
    (h : (!b && isAlphaLower c) = true) (hm : tryMatch (c :: cs) = none) :
    reScanW b (c :: cs) = reScanW (isWordChar c) cs := by
  rw [show reScanW b (c :: cs) = reScanF (cs.length + 1) b (c :: cs) from rfl,
    reScanF_succ_cons, if_pos h, hm]
  dsimp only
  rw [reScanF_eq cs.length (isWordChar c) cs le_rfl]

theorem reScanW_some (b : Bool) (c : Char) (cs : List Char) (L : Nat)
    (h : (!b && isAlphaLower c) = true) (hm : tryMatch (c :: cs) = some L) :
    reScanW b (c :: cs) = (c :: cs).take L :: reScanW true ((c :: cs).drop L) := by
  obtain ⟨hL3, _, _⟩ := greedy_some _ _ _ hm
  have hdrop : ((c :: cs).drop L).length ≤ cs.length := by
    rw [List.length_drop]
    simp only [List.length_cons]
    omega
  rw [show reScanW b (c :: cs) = reScanF (cs.length + 1) b (c :: cs) from rfl,
    reScanF_succ_cons, if_pos h, hm]
  dsimp only
  rw [reScanF_eq cs.length true _ hdrop]

theorem alpha_imp_word (c : Char) (h : isAlphaLower c = true) : isWordChar c = true := by
  unfold isAlphaLower at h
  unfold isWordChar
  rw [h]
  rfl

theorem space_not_word (c : Char) (h : isSpaceChar c = true) : isWordChar c = false := by
  unfold isSpaceChar at h
  simp only [Bool.or_eq_true, decide_eq_true_eq] at h
  rcases h with ((((rfl | rfl) | rfl) | rfl) | rfl) | rfl <;> rfl

theorem dropWhile_head_not (p : Char → Bool) :
    ∀ (l : List Char) (d : Char) (t : List Char), l.dropWhile p = d :: t → p d = false
  | [], d, t, h => List.noConfusion h
  | c :: cs, d, t, h => by
    rw [List.dropWhile_cons] at h
    by_cases hp : p c = true
    · rw [if_pos hp] at h
      exact dropWhile_head_not p cs d t h
    · rw [if_neg hp] at h
      obtain ⟨rfl, -⟩ := List.cons.inj h
      exact Bool.not_eq_true _ ▸ hp

theorem wordBoundary_drop_nil (l : List Char) (k : Nat) (h : l.drop k = []) :
    wordBoundaryAt l k = true := by
  unfold wordBoundaryAt
  rw [h]

theorem wordBoundary_drop_cons (l : List Char) (k : Nat) (d : Char) (t : List Char)
    (h : l.drop k = d :: t) : wordBoundaryAt l k = !isWordChar d := by
  unfold wordBoundaryAt
  rw [h]

/-- The filter of the specification's keyword description: a token is a run
consisting solely of lowercase letters, of length at least 3. -/
def kwPred (r : List Char) : Bool :=
  r.all isAlphaLower && decide (3 ≤ r.length)

/-- Keyword extraction as the specification describes it, with the word-level
boundary semantics of `\b` made explicit: the maximal word-character runs of
the text that consist solely of lowercase letters and have length ≥ 3, in
left-to-right order. -/
def specTokens (l : List Char) : List (List Char) :=
  (runsW isWordChar l).filter kwPred

theorem specTokens_nil : specTokens [] = [] := rfl

theorem specTokens_not_word (c : Char) (cs : List Char) (hw : isWordChar c = false) :
    specTokens (c :: cs) = specTokens cs := by
  unfold specTokens
  rw [runsW_cons_neg _ c cs hw]

/-- The regex scan agrees with the specification-style description: starting
at a non-word position (`false`) it produces exactly the filtered maximal
word runs; starting just after a word character (`true`) the leading word run
cannot host a match and is skipped. -/
theorem scan_spec : ∀ (n : Nat) (l : List Char), l.length ≤ n →
    reScanW false l = specTokens l ∧
    reScanW true l = specTokens (l.dropWhile isWordChar) := by
  intro n
  induction n using Nat.strong_induction_on with
  | _ n IH =>
    intro l hl
    cases l with
    | nil => exact ⟨rfl, rfl⟩
    | cons c cs =>
      cases n with
      | zero => simp at hl
      | succ m =>
        have hm_lt : m < m + 1 := Nat.lt_succ_self m
        have hl2 : cs.length + 1 ≤ m + 1 := by simpa using hl
        have hcs : cs.length ≤ m := by omega
        have htrue : reScanW true (c :: cs) = specTokens ((c :: cs).dropWhile isWordChar) := by
          rw [reScanW_skip true c cs (by simp)]
          by_cases hw : isWordChar c = true
          · rw [hw, (IH m hm_lt cs hcs).2, List.dropWhile_cons, if_pos hw]
          · replace hw : isWordChar c = false := Bool.not_eq_true _ ▸ hw
            rw [hw, (IH m hm_lt cs hcs).1, List.dropWhile_cons, if_neg (by simp [hw]),
              specTokens_not_word c cs hw]
        refine ⟨?_, htrue⟩
        by_cases ha : isAlphaLower c = true
        · have hw : isWordChar c = true := alpha_imp_word c ha
          have hcond : (!false && isAlphaLower c) = true := by simp [ha]
          obtain ⟨runA, restA, hrunA, hrestA⟩ :
              ∃ ra rs, ra = (c :: cs).takeWhile isAlphaLower ∧
                rs = (c :: cs).dropWhile isAlphaLower := ⟨_, _, rfl, rfl⟩
          have hsplit : runA ++ restA = c :: cs := by
            rw [hrunA, hrestA]
            exact List.takeWhile_append_dropWhile _ _
          have halpha_all : ∀ x ∈ runA, isAlphaLower x = true := by
            intro x hx
            rw [hrunA] at hx
            exact List.mem_takeWhile_imp hx
          have hword_all : ∀ x ∈ runA, isWordChar x = true := fun x hx =>
            alpha_imp_word x (halpha_all x hx)
          have hlen_split : runA.length + restA.length = cs.length + 1 := by
            have h2 := congrArg List.length hsplit
            simpa using h2
          have hnA1 : 1 ≤ runA.length := by
            rw [hrunA, List.takeWhile_cons, if_pos ha]
            simp
          have htakeA : (c :: cs).take runA.length = runA := by
            conv_lhs => rw [← hsplit]
            exact List.take_left runA restA
          have hdropA : (c :: cs).drop runA.length = restA := by
            conv_lhs => rw [← hsplit]
            exact List.drop_left runA restA
          have htwA : (c :: cs).takeWhile isWordChar = runA ++ restA.takeWhile isWordChar := by
            conv_lhs => rw [← hsplit]
            exact takeWhile_append_of_all _ runA restA hword_all
          have hdwA : (c :: cs).dropWhile isWordChar = restA.dropWhile isWordChar := by
            conv_lhs => rw [← hsplit]
            exact dropWhile_append_of_all _ runA restA hword_all
          have hrest_le : restA.length ≤ m := by omega
          have hhead_not_alpha : ∀ d t, restA = d :: t → isAlphaLower d = false := by
            intro d t hr
            exact dropWhile_head_not isAlphaLower (c :: cs) d t (hrestA.symm.trans hr)
          cases hm2 : tryMatch (c :: cs) with
          | some L =>
            have hm3 : greedy (c :: cs) ((c :: cs).takeWhile isAlphaLower).length = some L := hm2
            obtain ⟨hL3, hLle, hLb⟩ := greedy_some _ _ _ hm3
            rw [← hrunA] at hLle
            have hLeq : L = runA.length := by
              by_contra hne
              have hlt : L < runA.length := lt_of_le_of_ne hLle hne
              rw [hrunA] at hlt
              obtain ⟨e, t, hdropL, he⟩ := drop_takeWhile_head isAlphaLower L (c :: cs) hlt
              have hbf : wordBoundaryAt (c :: cs) L = !isWordChar e :=
                wordBoundary_drop_cons _ _ _ _ hdropL
              rw [alpha_imp_word e he] at hbf
              rw [hbf] at hLb
              simp at hLb
            subst hLeq
            have hb : wordBoundaryAt (c :: cs) runA.length = true := hLb
            have hshape : restA = [] ∨ ∃ d t, restA = d :: t ∧ isWordChar d = false := by
              cases hr : restA with
              | nil => exact Or.inl rfl
              | cons d t =>
                right
                refine ⟨d, t, rfl, ?_⟩
                have hbc : wordBoundaryAt (c :: cs) runA.length = !isWordChar d :=
                  wordBoundary_drop_cons _ _ _ _ (by rw [hdropA, hr])
                rw [hbc] at hb
                cases hdw : isWordChar d
                · rfl
                · rw [hdw] at hb
                  simp at hb
            have hrest_dw : restA.dropWhile isWordChar = restA := by
              rcases hshape with hnil | ⟨d, t, hr, hdw⟩
              · rw [hnil]
                rfl
              · rw [hr, List.dropWhile_cons, if_neg (by simp [hdw])]
            have htwr : restA.takeWhile isWordChar = [] := by
              rcases hshape with hnil | ⟨d, t, hr, hdw⟩
              · rw [hnil]
                rfl
              · rw [hr, List.takeWhile_cons, if_neg (by simp [hdw])]
            rw [reScanW_some false c cs runA.length hcond hm2, htakeA, hdropA,
              (IH m hm_lt restA hrest_le).2, hrest_dw]
            have hq : kwPred runA = true := by
              unfold kwPred
              rw [List.all_eq_true.mpr halpha_all, decide_eq_true hL3]
              rfl
            unfold specTokens
            rw [runsW_cons_pos _ c cs hw, htwA, htwr, List.append_nil, hdwA, hrest_dw,
              List.filter_cons_of_pos hq]
          | none =>
            rw [reScanW_none false c cs hcond hm2, hw, (IH m hm_lt cs hcs).2]
            have hq : kwPred ((c :: cs).takeWhile isWordChar) = false := by
              by_cases hb3 : 3 ≤ runA.length
              · have hbf : wordBoundaryAt (c :: cs) runA.length = false := by
                  cases hbc : wordBoundaryAt (c :: cs) runA.length
                  · rfl
                  · exfalso
                    have hg := greedy_of_boundary (c :: cs) runA.length hb3 hbc
                    have hm3 : greedy (c :: cs) ((c :: cs).takeWhile isAlphaLower).length =
                        none := hm2
                    rw [← hrunA, hg] at hm3
                    exact Option.noConfusion hm3
                cases hr : restA with
                | nil =>
                  exfalso
                  have hbt : wordBoundaryAt (c :: cs) runA.length = true :=
                    wordBoundary_drop_nil _ _ (by rw [hdropA, hr])
                  rw [hbt] at hbf
                  exact Bool.noConfusion hbf
                | cons d t =>
                  have hwd : isWordChar d = true := by
                    have hbc : wordBoundaryAt (c :: cs) runA.length = !isWordChar d :=
                      wordBoundary_drop_cons _ _ _ _ (by rw [hdropA, hr])
                    rw [hbc] at hbf
                    cases hx : isWordChar d
                    · rw [hx] at hbf
                      simp at hbf
                    · rfl
                  have had : isAlphaLower d = false := hhead_not_alpha d t hr
                  unfold kwPred
                  rw [htwA, hr, List.takeWhile_cons, if_pos hwd, List.all_append, List.all_cons,
                    had]
                  simp
              · cases hr : restA with
                | nil =>
                  unfold kwPred
                  rw [htwA, hr, List.takeWhile_nil, List.append_nil,
                    decide_eq_false (by omega)]
                  simp
                | cons d t =>
                  by_cases hwd : isWordChar d = true
                  · have had : isAlphaLower d = false := hhead_not_alpha d t hr
                    unfold kwPred
                    rw [htwA, hr, List.takeWhile_cons, if_pos hwd, List.all_append,
                      List.all_cons, had]
                    simp
                  · replace hwd : isWordChar d = false := Bool.not_eq_true _ ▸ hwd
                    unfold kwPred
                    rw [htwA, hr, List.takeWhile_cons, if_neg (by simp [hwd]), List.append_nil,
                      decide_eq_false (by omega)]
                    simp
            unfold specTokens
            rw [runsW_cons_pos _ c cs hw, List.filter_cons_of_neg (by simp [hq]),
              List.dropWhile_cons, if_pos hw]
        · replace ha : isAlphaLower c = false := Bool.not_eq_true _ ▸ ha
          rw [reScanW_skip false c cs (by simp [ha])]
          by_cases hw : isWordChar c = true
          · rw [hw, (IH m hm_lt cs hcs).2]
            have hq : kwPred ((c :: cs).takeWhile isWordChar) = false := by
              unfold kwPred
              rw [List.takeWhile_cons, if_pos hw, List.all_cons, ha]
              simp
            unfold specTokens
            rw [runsW_cons_pos _ c cs hw, List.filter_cons_of_neg (by simp [hq]),
              List.dropWhile_cons, if_pos hw]
          · replace hw : isWordChar c = false := Bool.not_eq_true _ ▸ hw
            rw [hw, (IH m hm_lt cs hcs).1, specTokens_not_word c cs hw]

theorem tw_cons_neg (p : Char → Bool) (c : Char) (cs : List Char) (h : p c = false) :
    (c :: cs).takeWhile p = [] := by
  rw [List.takeWhile_cons, if_neg (by simp [h])]

theorem tw_cons_pos (p : Char → Bool) (c : Char) (cs : List Char) (h : p c = true) :
    (c :: cs).takeWhile p = c :: cs.takeWhile p := by
  rw [List.takeWhile_cons, if_pos h]

theorem dw_cons_neg (p : Char → Bool) (c : Char) (cs : List Char) (h : p c = false) :
    (c :: cs).dropWhile p = c :: cs := by
  rw [List.dropWhile_cons, if_neg (by simp [h])]

theorem dw_cons_pos (p : Char → Bool) (c : Char) (cs : List Char) (h : p c = true) :
    (c :: cs).dropWhile p = cs.dropWhile p := by
  rw [List.dropWhile_cons, if_pos h]

theorem word_not_space (c : Char) (h : isWordChar c = true) : isSpaceChar c = false := by
  cases hs : isSpaceChar c
  · rfl
  · rw [space_not_word c hs] at h
    exact Bool.noConfusion h

/-- Whitespace collapsing does not disturb word runs: the leading word run is
unchanged and collapsing commutes with dropping it (word characters are never
whitespace, and collapsing only rewrites whitespace). -/
theorem collapse_tw_dw : ∀ (l : List Char),
    (collapseWs l).takeWhile isWordChar = l.takeWhile isWordChar ∧
    (collapseWs l).dropWhile isWordChar = collapseWs (l.dropWhile isWordChar)
  | [] => ⟨rfl, rfl⟩
  | [c] => by
    by_cases hc : isSpaceChar c = true
    · have hcw : isWordChar c = false := space_not_word c hc
      constructor
      · rw [collapseWs_one, if_pos hc, tw_cons_neg _ ' ' [] (by decide),
          tw_cons_neg _ c [] hcw]
      · rw [collapseWs_one, if_pos hc, dw_cons_neg _ ' ' [] (by decide),
          dw_cons_neg _ c [] hcw, collapseWs_one, if_pos hc]
    · replace hc : isSpaceChar c = false := Bool.not_eq_true _ ▸ hc
      rw [collapseWs_one, if_neg (by simp [hc])]
      constructor
      · rfl
      · by_cases hw : isWordChar c = true
        · rw [dw_cons_pos _ c [] hw]
          rfl
        · replace hw : isWordChar c = false := Bool.not_eq_true _ ▸ hw
          rw [dw_cons_neg _ c [] hw, collapseWs_one, if_neg (by simp [hc])]
  | c :: d :: rest => by
    by_cases hc : isSpaceChar c = true
    · have hcw : isWordChar c = false := space_not_word c hc
      by_cases hd : isSpaceChar d = true
      · have hdw : isWordChar d = false := space_not_word d hd
        constructor
        · rw [collapseWs_sp_sp c d rest hc hd, (collapse_tw_dw (d :: rest)).1,
            tw_cons_neg _ d rest hdw, tw_cons_neg _ c (d :: rest) hcw]
        · rw [collapseWs_sp_sp c d rest hc hd, (collapse_tw_dw (d :: rest)).2,
            dw_cons_neg _ d rest hdw, dw_cons_neg _ c (d :: rest) hcw,
            collapseWs_sp_sp c d rest hc hd]
      · replace hd : isSpaceChar d = false := Bool.not_eq_true _ ▸ hd
        constructor
        · rw [collapseWs_sp_ns c d rest hc hd, tw_cons_neg _ ' ' _ (by decide),
            tw_cons_neg _ c (d :: rest) hcw]
        · rw [collapseWs_sp_ns c d rest hc hd, dw_cons_neg _ ' ' _ (by decide),
            dw_cons_neg _ c (d :: rest) hcw, collapseWs_sp_ns c d rest hc hd]
    · replace hc : isSpaceChar c = false := Bool.not_eq_true _ ▸ hc
      rw [collapseWs_ns c d rest hc]
      by_cases hw : isWordChar c = true
      · constructor
        · rw [tw_cons_pos _ c _ hw, tw_cons_pos _ c (d :: rest) hw,
            (collapse_tw_dw (d :: rest)).1]
        · rw [dw_cons_pos _ c _ hw, dw_cons_pos _ c (d :: rest) hw,
            (collapse_tw_dw (d :: rest)).2]
      · replace hw : isWordChar c = false := Bool.not_eq_true _ ▸ hw
        constructor
        · rw [tw_cons_neg _ c _ hw, tw_cons_neg _ c (d :: rest) hw]
        · rw [dw_cons_neg _ c _ hw, dw_cons_neg _ c (d :: rest) hw,
            collapseWs_ns c d rest hc]

/-- The word runs of a text are unchanged by whitespace collapsing. -/
theorem runsW_collapse : ∀ (n : Nat) (l : List Char), l.length ≤ n →
    runsW isWordChar (collapseWs l) = runsW isWordChar l := by
  intro n
  induction n using Nat.strong_induction_on with
  | _ n IH =>
    intro l hl
    cases l with
    | nil => rfl
    | cons c cs =>
      cases n with
      | zero => simp at hl
      | succ m =>
        have hm_lt : m < m + 1 := Nat.lt_succ_self m
        have hl2 : cs.length + 1 ≤ m + 1 := by simpa using hl
        have hcs : cs.length ≤ m := by omega
        by_cases hc : isSpaceChar c = true
        · have hcw : isWordChar c = false := space_not_word c hc
          cases cs with
          | nil =>
            rw [collapseWs_one, if_pos hc, runsW_cons_neg _ ' ' [] (by decide),
              runsW_cons_neg _ c [] hcw]
          | cons d rest =>
            by_cases hd : isSpaceChar d = true
            · rw [collapseWs_sp_sp c d rest hc hd, runsW_cons_neg _ c (d :: rest) hcw]
              exact IH m hm_lt (d :: rest) hcs
            · replace hd : isSpaceChar d = false := Bool.not_eq_true _ ▸ hd
              rw [collapseWs_sp_ns c d rest hc hd, runsW_cons_neg _ ' ' _ (by decide),
                runsW_cons_neg _ c (d :: rest) hcw]
              exact IH m hm_lt (d :: rest) hcs
        · replace hc : isSpaceChar c = false := Bool.not_eq_true _ ▸ hc
          by_cases hw : isWordChar c = true
          · obtain ⟨X, hX⟩ := collapseWs_head_not_space c cs hc
            rw [hX, runsW_cons_pos _ c X hw, runsW_cons_pos _ c cs hw, ← hX,
              (collapse_tw_dw (c :: cs)).1, (collapse_tw_dw (c :: cs)).2]
            congr 1
            have hlen : ((c :: cs).dropWhile isWordChar).length ≤ m := by
              rw [dw_cons_pos _ c cs hw]
              exact le_trans (length_dropWhile_le _ cs) hcs
            exact IH m hm_lt _ hlen
          · replace hw : isWordChar c = false := Bool.not_eq_true _ ▸ hw
            cases cs with
            | nil =>
              rw [collapseWs_one, if_neg (by simp [hc])]
            | cons d rest =>
              rw [collapseWs_ns c d rest hc, runsW_cons_neg _ c _ hw,
                runsW_cons_neg _ c (d :: rest) hw]
              exact IH m hm_lt (d :: rest) hcs

/-- `get_keywords` computed through the specification-style description. -/
theorem get_keywords_eq_spec (s : String) :
    get_keywords s = (specTokens (s.data.map lowerChar)).map (fun r => String.mk r) := by
  unfold get_keywords
  rw [(scan_spec (s.data.map lowerChar).length _ le_rfl).1]

theorem specTokens_shape (l : List Char) : ∀ r ∈ specTokens l,
    r.all isAlphaLower = true ∧ 3 ≤ r.length := by
  intro r hr
  unfold specTokens at hr
  have hk := List.of_mem_filter hr
  unfold kwPred at hk
  rw [Bool.and_eq_true, decide_eq_true_eq] at hk
  exact hk

theorem specTokens_collapse (l : List Char) :
    specTokens (collapseWs l) = specTokens l := by
  unfold specTokens
  rw [runsW_collapse l.length l le_rfl]

theorem map_lower_idem (l : List Char) : (l.map lowerChar).map lowerChar = l.map lowerChar := by
  rw [List.map_map]
  exact List.map_congr_left (fun x _ => lowerChar_idem x)

theorem clean_text_data (s : String) :
    (clean_text s).data = (collapseWs s.data).map lowerChar := rfl

/-- The fixed stopword set `common_words` of `analyze_missing`. -/
def common_words : List String :=
  ["the", "and", "for", "with", "this", "that", "have", "has"]

/-- Stable insertion of a (keyword, count) pair into a list sorted by
descending count: the pair goes in front of the first entry whose count is
not larger. -/
def insertDesc (x : String × Nat) : List (String × Nat) → List (String × Nat)
  | [] => [x]
  | y :: ys => if y.2 ≤ x.2 then x :: y :: ys else y :: insertDesc x ys

/-- Stable sort by descending count: the model of Python's
`sorted(pairs, key=lambda x: x[1], reverse=True)`.  Python's sort is stable
and a stable sort's output is uniquely determined by the key order and the
input order, so any stable implementation models it faithfully. -/
def sortDesc : List (String × Nat) → List (String × Nat)
  | [] => []
  | x :: xs => insertDesc x (sortDesc xs)

/-- The set difference `job_words - resume_words - common_words` of
`analyze_missing`.  Python `set`s are modelled as deduplicated lists; their
iteration order is unspecified in Python, and no proved property below
depends on the order chosen. -/
def missingList (resume_text job_desc : String) : List String :=
  ((get_keywords job_desc).dedup).filter
    (fun w => !(((get_keywords resume_text).dedup).contains w) && !(common_words.contains w))

/-- The `(word, job_word_counts[word])` pairs of `analyze_missing`; the
`Counter` lookup is the occurrence count in the job text's keyword list
(0 for an absent key, as for `Counter`). -/
def missingPairs (resume_text job_desc : String) : List (String × Nat) :=
  (missingList resume_text job_desc).map (fun w => (w, (get_keywords job_desc).count w))

/-- Model of `analyze_missing`: the missing-keyword set paired with its job
counts, stable-sorted by descending count, truncated to the top 5, projected
back to the keywords.  The `try/except` wrapper of the source is dead in
this model: no step can fail. -/
def analyze_missing (resume_text job_desc : String) : List String :=
  ((sortDesc (missingPairs resume_text job_desc)).take 5).map Prod.fst

theorem insertDesc_perm (x : String × Nat) :
    ∀ (l : List (String × Nat)), (insertDesc x l).Perm (x :: l)
  | [] => List.Perm.refl _
  | y :: ys => by
    unfold insertDesc
    by_cases h : y.2 ≤ x.2
    · rw [if_pos h]
    · rw [if_neg h]
      exact ((insertDesc_perm x ys).cons y).trans (List.Perm.swap x y ys)

theorem sortDesc_perm : ∀ (l : List (String × Nat)), (sortDesc l).Perm l
  | [] => List.Perm.refl _
  | x :: xs => (insertDesc_perm x (sortDesc xs)).trans ((sortDesc_perm xs).cons x)

theorem insertDesc_sorted (x : String × Nat) :
    ∀ (l : List (String × Nat)), l.Pairwise (fun a b => b.2 ≤ a.2) →
      (insertDesc x l).Pairwise (fun a b => b.2 ≤ a.2)
  | [], _ => List.pairwise_cons.mpr ⟨by simp, List.Pairwise.nil⟩
  | y :: ys, h => by
    obtain ⟨hy, hys⟩ := List.pairwise_cons.mp h
    unfold insertDesc
    by_cases hxy : y.2 ≤ x.2
    · rw [if_pos hxy]
      refine List.pairwise_cons.mpr ⟨?_, h⟩
      intro z hz
      rcases List.mem_cons.mp hz with rfl | hz2
      · exact hxy
      · exact le_trans (hy z hz2) hxy
    · rw [if_neg hxy]
      refine List.pairwise_cons.mpr ⟨?_, insertDesc_sorted x ys hys⟩
      intro z hz
      rcases List.mem_cons.mp ((insertDesc_perm x ys).mem_iff.mp hz) with rfl | hz2
      · omega
      · exact hy z hz2

theorem sortDesc_sorted : ∀ (l : List (String × Nat)),
    (sortDesc l).Pairwise (fun a b => b.2 ≤ a.2)
  | [] => List.Pairwise.nil
  | x :: xs => insertDesc_sorted x (sortDesc xs) (sortDesc_sorted xs)

/-- Python's lowercase conversion of a string (ASCII model). -/
def pyLower (s : String) : String :=
  String.mk (s.data.map lowerChar)

/-- Is `needle` a contiguous segment of `hay`: the model of Python's
substring test `needle in hay`. -/
def containsSeg : List Char → List Char → Bool
  | n, [] => n.isEmpty
  | n, c :: t => n.isPrefixOf (c :: t) || containsSeg n t

/-- `strContains hay needle` models Python's `needle in hay`. -/
def strContains (hay needle : String) : Bool :=
  containsSeg needle.data hay.data

/-- Model of `generate_tailored_suggestions`: the missing-keyword block (one
line listing the missing keywords; a skills line when additionally
`skill_score < 60`; the `python`/`cad`/`data` triggers — all nested inside
`if missing_keywords:` in the source), followed by the substring triggers
`intern`/`design`/`analysis` on the lowercased job description.  The
`try/except` wrapper of the source is dead in this model: no step of the
body can fail, so the fallback line is unreachable. -/
def generate_tailored_suggestions (resume_text job_desc : String) (skill_score : ℚ) :
    List String :=
  let missing_keywords := analyze_missing resume_text job_desc
  let block :=
    if missing_keywords ≠ [] then
      ["🔍 **Missing keywords:** " ++ String.intercalate ", " missing_keywords]
      ++ (if skill_score < 60 then
            ["✏️ Add these skills: " ++ String.intercalate ", " (missing_keywords.take 3) ++
              " to your skills section"]
          else [])
      ++ (if missing_keywords.contains "python" then
            ["🐍 Mention Python projects from coursework"] else [])
      ++ (if missing_keywords.contains "cad" then
            ["📐 Highlight any CAD projects from mechanical labs"] else [])
      ++ (if missing_keywords.contains "data" then
            ["📊 Include any data analysis projects"] else [])
    else []
  let job_desc_lower := pyLower job_desc
  block
  ++ (if strContains job_desc_lower "intern" then
        ["🎯 Frame academic projects as \x27pre-internship experience\x27"] else [])
  ++ (if strContains job_desc_lower "design" then
        ["✏️ Add design projects from engineering graphics"] else [])
  ++ (if strContains job_desc_lower "analysis" then
        ["🔢 Highlight math/statistics coursework"] else [])

/-- The tokens `TfidfVectorizer` extracts with its defaults (`lowercase=True`
and `token_pattern = r"(?u)\b\w\w+\b"`): the maximal word-character runs of
the lowercased text having length at least 2. -/
def vecTokens (s : String) : List String :=
  ((runsW isWordChar (s.data.map lowerChar)).filter (fun r => decide (2 ≤ r.length))).map
    (fun r => String.mk r)

/-- The vectorizer's vocabulary over the two-document corpus
`[resume, job_desc]`. -/
def tfidfVocab (resume job_desc : String) : Finset String :=
  (vecTokens resume ++ vecTokens job_desc).toFinset

/-- Term frequency: the raw occurrence count of term `t` in document `d`. -/
def tf (d t : String) : Nat :=
  (vecTokens d).count t

/-- Document frequency of term `t` in the two-document corpus. -/
def df (resume job_desc t : String) : Nat :=
  (if t ∈ vecTokens resume then 1 else 0) + (if t ∈ vecTokens job_desc then 1 else 0)

/-- Smoothed inverse document frequency, as sklearn computes it with its
default `smooth_idf=True` over a corpus of `n = 2` documents:
`ln((1+n)/(1+df)) + 1 = ln(3/(1+df)) + 1`. -/
noncomputable def idf (resume job_desc t : String) : ℝ :=
  Real.log (3 / (1 + (df resume job_desc t : ℝ))) + 1

/-- TF-IDF weight of term `t` for document `d` of the corpus. -/
noncomputable def tfidfWeight (resume job_desc d t : String) : ℝ :=
  (tf d t : ℝ) * idf resume job_desc t

/-- Inner product of the TF-IDF vectors of documents `x` and `y` over the
corpus vocabulary. -/
noncomputable def dotProd (resume job_desc x y : String) : ℝ :=
  ∑ t ∈ tfidfVocab resume job_desc,
    tfidfWeight resume job_desc x t * tfidfWeight resume job_desc y t

/-- Euclidean norm of the TF-IDF vector of document `d`. -/
noncomputable def vecNorm (resume job_desc d : String) : ℝ :=
  Real.sqrt (dotProd resume job_desc d d)

/-- Cosine similarity of the two TF-IDF rows, as `cosine_similarity` computes
it: rows are normalised — a zero row is left as the zero vector — and the
inner product is taken; in exact arithmetic this is `⟪x,y⟫/(‖x‖·‖y‖)` for
nonzero rows and `0` when a row is zero.  (`TfidfVectorizer` additionally
l2-normalises its rows, which leaves the cosine unchanged.) -/
noncomputable def cosineSim (resume job_desc : String) : ℝ :=
  if vecNorm resume job_desc resume = 0 ∨ vecNorm resume job_desc job_desc = 0 then 0
  else dotProd resume job_desc resume job_desc /
    (vecNorm resume job_desc resume * vecNorm resume job_desc job_desc)

/-- Python's `str.strip()` (ASCII whitespace model): leading and trailing
whitespace removed. -/
def pyStrip (l : List Char) : List Char :=
  ((l.dropWhile isSpaceChar).reverse.dropWhile isSpaceChar).reverse

/-- Model of `calculate_similarity`: an empty or whitespace-only input scores
`0.0` before any vectorisation is attempted; `fit_transform` raises an
"empty vocabulary" `ValueError` when neither document yields a token, which
the `except` arm turns into `0.0`; otherwise the cosine similarity is scaled
to a percentage (`* 100`), boosted by `1.5` and capped at `95`. -/
noncomputable def calculate_similarity (resume job_desc : String) : ℝ :=
  if pyStrip resume.data = [] ∨ pyStrip job_desc.data = [] then 0
  else if tfidfVocab resume job_desc = ∅ then 0
  else min (cosineSim resume job_desc * 100 * 1.5) 95

theorem df_le_two (r j t : String) : df r j t ≤ 2 := by
  unfold df
  split <;> split <;> omega

theorem one_le_idf (r j t : String) : 1 ≤ idf r j t := by
  unfold idf
  have h1 : (0 : ℝ) < 1 + (df r j t : ℝ) := by positivity
  have hd : (df r j t : ℝ) ≤ 2 := by exact_mod_cast df_le_two r j t
  have h2 : (1 : ℝ) ≤ 3 / (1 + (df r j t : ℝ)) := by
    rw [le_div_iff₀ h1]
    linarith
  have h3 := Real.log_nonneg h2
  linarith

theorem tfidfWeight_nonneg (r j d t : String) : 0 ≤ tfidfWeight r j d t :=
  mul_nonneg (Nat.cast_nonneg _) (le_trans zero_le_one (one_le_idf r j t))

theorem dotProd_nonneg (r j x y : String) : 0 ≤ dotProd r j x y :=
  Finset.sum_nonneg fun t _ =>
    mul_nonneg (tfidfWeight_nonneg r j x t) (tfidfWeight_nonneg r j y t)

theorem cosineSim_nonneg (r j : String) : 0 ≤ cosineSim r j := by
  unfold cosineSim
  split
  · exact le_rfl
  · exact div_nonneg (dotProd_nonneg r j r j)
      (mul_nonneg (Real.sqrt_nonneg _) (Real.sqrt_nonneg _))

theorem tfidfVocab_comm (a b : String) : tfidfVocab a b = tfidfVocab b a := by
  unfold tfidfVocab
  rw [List.toFinset_append, List.toFinset_append, Finset.union_comm]

theorem df_comm (a b t : String) : df a b t = df b a t := by
  unfold df
  omega

theorem idf_comm (a b t : String) : idf a b t = idf b a t := by
  unfold idf
  rw [df_comm]

theorem tfidfWeight_comm (a b d t : String) : tfidfWeight a b d t = tfidfWeight b a d t := by
  unfold tfidfWeight
  rw [idf_comm]

theorem dotProd_comm_corpus (a b x y : String) : dotProd a b x y = dotProd b a x y := by
  unfold dotProd
  rw [tfidfVocab_comm]
  exact Finset.sum_congr rfl fun t _ => by
    rw [tfidfWeight_comm a b x t, tfidfWeight_comm a b y t]

theorem dotProd_swap (a b x y : String) : dotProd a b x y = dotProd a b y x := by
  unfold dotProd
  exact Finset.sum_congr rfl fun t _ => mul_comm _ _

theorem vecNorm_comm (a b d : String) : vecNorm a b d = vecNorm b a d := by
  unfold vecNorm
  rw [dotProd_comm_corpus]

theorem cosineSim_comm (a b : String) : cosineSim a b = cosineSim b a := by
  unfold cosineSim
  rw [vecNorm_comm a b a, vecNorm_comm a b b, dotProd_comm_corpus a b a b,
    dotProd_swap b a a b]
  by_cases h : vecNorm b a a = 0 ∨ vecNorm b a b = 0
  · rw [if_pos h, if_pos (Or.symm h)]
  · rw [if_neg h, if_neg (fun hc => h (Or.symm hc)), mul_comm]

theorem dotProd_self_pos (t : String) (h : vecTokens t ≠ []) :
    0 < dotProd t t t t := by
  obtain ⟨w, ws, hw⟩ := List.exists_cons_of_ne_nil h
  have hmem : w ∈ vecTokens t := by
    rw [hw]
    exact List.mem_cons_self w ws
  have hvocab : w ∈ tfidfVocab t t := by
    unfold tfidfVocab
    rw [List.mem_toFinset]
    exact List.mem_append.mpr (Or.inl hmem)
  unfold dotProd
  apply Finset.sum_pos'
  · intro i _
    exact mul_nonneg (tfidfWeight_nonneg t t t i) (tfidfWeight_nonneg t t t i)
  · refine ⟨w, hvocab, ?_⟩
    have htf : 0 < tf t w := List.count_pos_iff.mpr hmem
    have htf2 : (1 : ℝ) ≤ (tf t w : ℝ) := by exact_mod_cast htf
    have hidf : 1 ≤ idf t t w := one_le_idf t t w
    have hw1 : 1 ≤ tfidfWeight t t t w := by
      unfold tfidfWeight
      nlinarith
    nlinarith

theorem cosineSim_self (t : String) (h : vecTokens t ≠ []) : cosineSim t t = 1 := by
  have hpos := dotProd_self_pos t h
  have hnpos : 0 < vecNorm t t t := Real.sqrt_pos.mpr hpos
  unfold cosineSim
  rw [if_neg (by push_neg; exact ⟨ne_of_gt hnpos, ne_of_gt hnpos⟩)]
  unfold vecNorm
  rw [Real.mul_self_sqrt (le_of_lt hpos), div_self (ne_of_gt hpos)]

theorem tfidfVocab_self_ne (t : String) (h : vecTokens t ≠ []) : tfidfVocab t t ≠ ∅ := by
  obtain ⟨w, ws, hw⟩ := List.exists_cons_of_ne_nil h
  intro hemp
  have hvocab : w ∈ tfidfVocab t t := by
    unfold tfidfVocab
    rw [List.mem_toFinset]
    refine List.mem_append.mpr (Or.inl ?_)
    rw [hw]
    exact List.mem_cons_self w ws
  rw [hemp] at hvocab
  exact absurd hvocab (Finset.not_mem_empty w)

theorem contains_true_iff (l : List String) (a : String) : l.contains a = true ↔ a ∈ l :=
  ⟨List.mem_of_elem_eq_true, List.elem_eq_true_of_mem⟩

/-- Keyword extraction as claim C3 words it: the maximal runs of 3 or more
lowercase alphabetic characters in the case-folded text, bounded by
NON-ALPHABETIC characters (rather than by non-word characters). -/
def claimKeywords (s : String) : List String :=
  ((runsW isAlphaLower (s.data.map lowerChar)).filter (fun r => decide (3 ≤ r.length))).map
    (fun r => String.mk r)

/-- The amended description of `get_keywords`: the maximal word-character
runs (letters, digits, underscore) of the case-folded text that consist
solely of lowercase letters and have length at least 3, in left-to-right
order with duplicates retained. -/
def amendedKeywords (s : String) : List String :=
  (specTokens (s.data.map lowerChar)).map (fun r => String.mk r)

/-- The suggestion chain as claim C5 words it: the missing-keywords line,
the skills line (missing keywords non-empty AND `skillScore < 60`), the
`python`/`cad`/`data` missing-keyword triggers, then the
`intern`/`design`/`analysis` substring triggers, each rule appending its
line in this fixed order. -/
def claimSuggest (resume_text job_desc : String) (skill_score : ℚ) : List String :=
  (if analyze_missing resume_text job_desc ≠ [] then
    ["🔍 **Missing keywords:** " ++
      String.intercalate ", " (analyze_missing resume_text job_desc)]
   else [])
  ++ (if analyze_missing resume_text job_desc ≠ [] ∧ skill_score < 60 then
        ["✏️ Add these skills: " ++
          String.intercalate ", " ((analyze_missing resume_text job_desc).take 3) ++
          " to your skills section"]
      else [])
  ++ (if (analyze_missing resume_text job_desc).contains "python" then
        ["🐍 Mention Python projects from coursework"] else [])
  ++ (if (analyze_missing resume_text job_desc).contains "cad" then
        ["📐 Highlight any CAD projects from mechanical labs"] else [])
  ++ (if (analyze_missing resume_text job_desc).contains "data" then
        ["📊 Include any data analysis projects"] else [])
  ++ (if strContains (pyLower job_desc) "intern" then
        ["🎯 Frame academic projects as \x27pre-internship experience\x27"] else [])
  ++ (if strContains (pyLower job_desc) "design" then
        ["✏️ Add design projects from engineering graphics"] else [])
  ++ (if strContains (pyLower job_desc) "analysis" then
        ["🔢 Highlight math/statistics coursework"] else [])

/-- When every job keyword already occurs in the résumé, the missing set is
empty and the gap analysis returns the empty list. -/
theorem analyze_missing_superset (r j : String)
    (h : ∀ w ∈ get_keywords j, w ∈ get_keywords r) : analyze_missing r j = [] := by
  have hfil : missingList r j = [] := by
    unfold missingList
    rw [List.filter_eq_nil_iff]
    intro w hw
    have hwj : w ∈ get_keywords j := List.mem_dedup.mp hw
    have hwr : w ∈ (get_keywords r).dedup := List.mem_dedup.mpr (h w hwj)
    rw [Bool.and_eq_true, Bool.not_eq_true', (contains_true_iff _ _).mpr hwr]
    simp
  unfold analyze_missing missingPairs
  rw [hfil]
  rfl

/-- The similarity scorer is symmetric in its two arguments: the vocabulary,
document frequencies and cosine are all symmetric, and so are the
empty-input checks. -/
theorem calculate_similarity_comm (a b : String) :
    calculate_similarity a b = calculate_similarity b a := by
  unfold calculate_similarity
  rw [tfidfVocab_comm, cosineSim_comm]
  by_cases h1 : pyStrip a.data = [] ∨ pyStrip b.data = []
  · rw [if_pos h1, if_pos (Or.symm h1)]
  · rw [if_neg h1, if_neg (fun hc => h1 (Or.symm hc))]

/-- Claim C1: for every pair of input strings, the value returned by the
similarity scorer `calculate_similarity` lies in the closed interval
[0, 95]. -/
theorem claim_C1 : ∀ (r j : String),
    0 ≤ calculate_similarity r j ∧ calculate_similarity r j ≤ 95 := by
  intro r j
  unfold calculate_similarity
  split
  · norm_num
  · split
    · norm_num
    · constructor
      · have h0 := cosineSim_nonneg r j
        have h1 : 0 ≤ cosineSim r j * 100 * 1.5 := by nlinarith
        exact le_min h1 (by norm_num)
      · exact min_le_right _ _

/-- Claim C2: if either input is empty or whitespace-only after trimming the
scorer returns 0 (the first branch, before any vectorisation); and the
internal vectorisation failure (the empty-vocabulary error raised by
`fit_transform`) is caught and also yields 0 — the scorer is a total
function and never propagates an exception. -/
theorem claim_C2 : ∀ (r j : String),
    ((pyStrip r.data = [] ∨ pyStrip j.data = []) → calculate_similarity r j = 0) ∧
    (tfidfVocab r j = ∅ → calculate_similarity r j = 0) := by
  intro r j
  constructor
  · intro h
    unfold calculate_similarity
    rw [if_pos h]
  · intro h
    unfold calculate_similarity
    by_cases hs : pyStrip r.data = [] ∨ pyStrip j.data = []
    · rw [if_pos hs]
    · rw [if_neg hs, if_pos h]

theorem claim_C2_witness :
    calculate_similarity " " "x" = 0 ∧ calculate_similarity "?!" "." = 0 :=
  ⟨(claim_C2 " " "x").1 (Or.inl (by decide)), (claim_C2 "?!" ".").2 (by decide)⟩

/-- Claim C6: when the keyword multiset of the résumé covers every keyword
of the job description, `analyze_missing` returns the empty sequence. -/
theorem claim_C6 : ∀ (r j : String),
    (∀ w ∈ get_keywords j, w ∈ get_keywords r) → analyze_missing r j = [] :=
  fun r j h => analyze_missing_superset r j h

theorem claim_C6_witness : analyze_missing "alpha beta" "beta" = [] :=
  claim_C6 "alpha beta" "beta" (by decide)

/-- Claim C7: for non-empty (non-whitespace-only) inputs the scorer is
symmetric: the TF-IDF construction over the two-document corpus and the
cosine are symmetric in the documents, and the `min(x * 1.5, 95)`
calibration is applied to the same value on both sides. -/
theorem claim_C7 : ∀ (a b : String), pyStrip a.data ≠ [] → pyStrip b.data ≠ [] →
    calculate_similarity a b = calculate_similarity b a :=
  fun a b _ _ => calculate_similarity_comm a b

theorem claim_C7_witness :
    calculate_similarity "alpha" "beta" = calculate_similarity "beta" "alpha" :=
  claim_C7 "alpha" "beta" (by decide) (by decide)

/-- Claim C8: `clean_text` is idempotent — collapsing whitespace runs is
idempotent, lowercasing is idempotent, and the two commute. -/
theorem claim_C8 : ∀ (s : String), clean_text (clean_text s) = clean_text s := by
  intro s
  unfold clean_text
  refine congrArg String.mk ?_
  show (collapseWs ((collapseWs s.data).map lowerChar)).map lowerChar
      = (collapseWs s.data).map lowerChar
  rw [collapseWs_map_lower (collapseWs s.data), collapseWs_idem s.data, map_lower_idem]

/-- Claim C10: keyword extraction is invariant under `clean_text` — the
extractor lowercases its input itself (and lowercasing is idempotent), and
collapsing whitespace runs never merges or splits the word runs that host
keywords. -/
theorem claim_C10 : ∀ (s : String), get_keywords (clean_text s) = get_keywords s := by
  intro s
  rw [get_keywords_eq_spec, get_keywords_eq_spec]
  refine congrArg _ ?_
  show specTokens (((collapseWs s.data).map lowerChar).map lowerChar)
      = specTokens (s.data.map lowerChar)
  rw [map_lower_idem, ← collapseWs_map_lower s.data, specTokens_collapse]

/-- Counterexample to claim C3 as stated: `\b` is a word boundary, not a
non-alphabetic boundary.  In "abc1" the run "abc" is bounded by the
non-alphabetic digit `1`, so the claim's description yields ["abc"], but the
digit is a word character, so the regex finds no match and `get_keywords`
returns the empty list. -/
theorem claim_C3_counterexample :
    get_keywords "abc1" = [] ∧ claimKeywords "abc1" = ["abc"] :=
  ⟨by decide, by decide⟩

/-- Claim C3 (amended): `get_keywords` returns exactly the left-to-right
sequence, duplicates retained, of maximal runs of 3 or more lowercase
alphabetic characters in the case-folded text that are bounded by non-WORD
characters (letters, digits and underscore end no match); in particular no
returned token is shorter than 3 characters or contains a non-alphabetic
character. -/
theorem claim_C3 : ∀ (s : String),
    get_keywords s = amendedKeywords s ∧
    ∀ w ∈ get_keywords s, 3 ≤ w.length ∧ w.data.all isAlphaLower = true := by
  intro s
  constructor
  · exact get_keywords_eq_spec s
  · intro w hw
    rw [get_keywords_eq_spec] at hw
    obtain ⟨rr, hrr, hweq⟩ := List.mem_map.mp hw
    obtain ⟨hall, hlen⟩ := specTokens_shape _ rr hrr
    subst hweq
    exact ⟨hlen, hall⟩

theorem claim_C3_witness :
    get_keywords "the cat!" = amendedKeywords "the cat!" ∧
      (3 ≤ ("the" : String).length ∧ ("the" : String).data.all isAlphaLower = true) :=
  ⟨(claim_C3 "the cat!").1, (claim_C3 "the cat!").2 "the" (by decide)⟩

/-- Claim C4: `analyze_missing` returns at most 5 entries; every entry is
outside the stopword set, a keyword of the job text, and not a keyword of
the résumé; and the entries are ordered by descending occurrence count in
the job text. -/
theorem claim_C4 : ∀ (r j : String),
    (analyze_missing r j).length ≤ 5 ∧
    (∀ w ∈ analyze_missing r j,
      w ∉ common_words ∧ w ∈ get_keywords j ∧ w ∉ get_keywords r) ∧
    (analyze_missing r j).Pairwise
      (fun w1 w2 => (get_keywords j).count w2 ≤ (get_keywords j).count w1) := by
  intro r j
  refine ⟨?_, ?_, ?_⟩
  · unfold analyze_missing
    rw [List.length_map, List.length_take]
    exact min_le_left 5 _
  · intro w hw
    unfold analyze_missing at hw
    obtain ⟨p, hp_take, hp_eq⟩ := List.mem_map.mp hw
    have hp_pairs : p ∈ missingPairs r j :=
      (sortDesc_perm _).mem_iff.mp (List.mem_of_mem_take hp_take)
    unfold missingPairs at hp_pairs
    obtain ⟨w2, hw2_missing, hw2_eq⟩ := List.mem_map.mp hp_pairs
    have hww : w2 = w := by rw [← hp_eq, ← hw2_eq]
    unfold missingList at hw2_missing
    rw [List.mem_filter] at hw2_missing
    obtain ⟨hw_job, hw_pred⟩ := hw2_missing
    rw [Bool.and_eq_true, Bool.not_eq_true', Bool.not_eq_true'] at hw_pred
    obtain ⟨hpr, hpc⟩ := hw_pred
    rw [← hww]
    refine ⟨?_, List.mem_dedup.mp hw_job, ?_⟩
    · intro hmem
      rw [(contains_true_iff _ _).mpr hmem] at hpc
      exact Bool.noConfusion hpc
    · intro hmem
      rw [(contains_true_iff _ _).mpr (List.mem_dedup.mpr hmem)] at hpr
      exact Bool.noConfusion hpr
  · unfold analyze_missing
    rw [List.pairwise_map]
    refine List.Pairwise.sublist (List.take_sublist 5 _) ?_
    have hchar : ∀ p ∈ sortDesc (missingPairs r j), p.2 = (get_keywords j).count p.1 := by
      intro p hp
      have hp2 := (sortDesc_perm _).mem_iff.mp hp
      unfold missingPairs at hp2
      obtain ⟨w2, hw2, hw2eq⟩ := List.mem_map.mp hp2
      rw [← hw2eq]
    refine List.Pairwise.imp_of_mem ?_ (sortDesc_sorted (missingPairs r j))
    intro a b ha hb hab
    rw [← hchar a ha, ← hchar b hb]
    exact hab

theorem claim_C4_witness :
    (analyze_missing "" "python").length ≤ 5 ∧
      ("python" ∉ common_words ∧ "python" ∈ get_keywords "python" ∧
        "python" ∉ get_keywords "") :=
  ⟨(claim_C4 "" "python").1, (claim_C4 "" "python").2.1 "python" (by decide)⟩

/-- Claim C5: the suggestion generator evaluates its rules in the fixed
order the claim describes and appends each fired rule's line; since no step
of the body can fail, the fallback line is unreachable and the empty
sequence is returned exactly when no rule fired. -/
theorem claim_C5 : ∀ (r j : String) (s : ℚ),
    generate_tailored_suggestions r j s = claimSuggest r j s ∧
    (generate_tailored_suggestions r j s = [] ↔
      (analyze_missing r j = [] ∧ strContains (pyLower j) "intern" = false ∧
        strContains (pyLower j) "design" = false ∧
        strContains (pyLower j) "analysis" = false)) := by
  intro r j s
  by_cases hm : analyze_missing r j = []
  · constructor
    · simp [generate_tailored_suggestions, claimSuggest, hm]
    · simp [generate_tailored_suggestions, hm]
  · constructor
    · simp [generate_tailored_suggestions, claimSuggest, hm, List.append_assoc]
    · constructor
      · intro habs
        exfalso
        have hne : generate_tailored_suggestions r j s ≠ [] := by
          simp [generate_tailored_suggestions, hm]
        exact hne habs
      · intro hrhs
        exact absurd hrhs.1 hm

/-- Counterexample to claim C9 as stated.  Two failures: (a) for the
non-empty text "intern" the job-description substring trigger fires, so the
suggestion list is not empty; (b) for the non-empty text "a!" the vectorizer
finds no token (its tokens need 2+ word characters), `fit_transform` raises
the empty-vocabulary error, and the score is 0, not the 95 cap. -/
theorem claim_C9_counterexample :
    (pyStrip "intern".data ≠ [] ∧
      generate_tailored_suggestions "intern" "intern" 50 ≠ []) ∧
    (pyStrip "a!".data ≠ [] ∧ calculate_similarity "a!" "a!" ≠ 95) := by
  refine ⟨⟨by decide, by decide⟩, ⟨by decide, ?_⟩⟩
  have h0 : calculate_similarity "a!" "a!" = 0 := by
    unfold calculate_similarity
    rw [if_neg (by decide), if_pos (by decide)]
  rw [h0]
  norm_num

/-- Claim C9 (amended): for every non-whitespace text `t` that yields at
least one vectorizer token and whose lowercased form contains none of the
substrings "intern", "design", "analysis", using `t` as both résumé and job
description gives the capped score 95, an empty missing-keyword list, and an
empty suggestion list (for every skill score). -/
theorem claim_C9 : ∀ (t : String), pyStrip t.data ≠ [] → vecTokens t ≠ [] →
    strContains (pyLower t) "intern" = false → strContains (pyLower t) "design" = false →
    strContains (pyLower t) "analysis" = false →
    calculate_similarity t t = 95 ∧ analyze_missing t t = [] ∧
      ∀ (s : ℚ), generate_tailored_suggestions t t s = [] := by
  intro t hstrip htok hint hdes hana
  have hscore : calculate_similarity t t = 95 := by
    unfold calculate_similarity
    rw [if_neg (by simp [hstrip]), if_neg (tfidfVocab_self_ne t htok), cosineSim_self t htok]
    norm_num
  have hmiss : analyze_missing t t = [] := analyze_missing_superset t t (fun w hw => hw)
  refine ⟨hscore, hmiss, ?_⟩
  intro s
  simp [generate_tailored_suggestions, hmiss, hint, hdes, hana]

theorem claim_C9_witness :
    calculate_similarity "hello" "hello" = 95 ∧ analyze_missing "hello" "hello" = [] ∧
      ∀ (s : ℚ), generate_tailored_suggestions "hello" "hello" s = [] :=
  claim_C9 "hello" (by decide) (by decide) (by decide) (by decide) (by decide)
